import Mathlib

deriving instance DecidableEq for Except

/-!
# Verification of the PLONK prover `create` (dlog/plonk/src/prover.rs)

A shallow embedding of `ProverProof::create` over an abstract scalar field
`F`.  Dense polynomials are coefficient lists (little-endian), mirroring
`ff_fft::DensePolynomial`.  The external collaborators (commitment scheme,
sponge, group map, opening proof) are abstract parameters; the transcript is
modelled as the chronological list of absorb/squeeze events, a challenge
being an arbitrary function of the events issued so far.
-/

namespace Marlin

set_option linter.unusedSectionVars false
set_option linter.unusedVariables false

variable {F : Type} [Field F] [DecidableEq F]

/-- Dense polynomial: little-endian coefficient list
(`ff_fft::DensePolynomial::coeffs`). -/
abbrev Poly (F : Type) := List F

namespace Poly

/-- Horner evaluation of a coefficient list (`DensePolynomial::evaluate`). -/
def eval (p : Poly F) (x : F) : F :=
  p.foldr (fun c acc => c + x * acc) 0

/-- Coefficient-wise sum, the longer tail kept (`&p + &q`). -/
def add : Poly F → Poly F → Poly F
  | [], q => q
  | p, [] => p
  | a :: p, b :: q => (a + b) :: add p q

/-- Negation (`-p`). -/
def neg (p : Poly F) : Poly F := p.map (fun a => -a)

/-- Difference (`&p - &q`). -/
def sub (p q : Poly F) : Poly F := add p (neg q)

/-- Scalar multiple (`p.scale c`). -/
def scale (c : F) (p : Poly F) : Poly F := p.map (fun a => c * a)

/-- Product by convolution (`&p * &q`). -/
def mul : Poly F → Poly F → Poly F
  | [], _ => []
  | a :: p, q => add (scale a q) (0 :: mul p q)

/-- All coefficients zero (`p.is_zero`, tolerant of padding zeros). -/
def isZero (p : Poly F) : Bool := p.all (fun a => a = 0)

/-- Drop trailing zero coefficients (the normal form `ff_fft` maintains). -/
def trim : Poly F → Poly F
  | [] => []
  | a :: p =>
    match trim p with
    | [] => if a = 0 then [] else [a]
    | q => a :: q

/-- The monomial `a·x^s`. -/
def monomial (s : Nat) (a : F) : Poly F := List.replicate s 0 ++ [a]

/-- Multiply by `x^s`. -/
def shift (s : Nat) (p : Poly F) : Poly F := List.replicate s 0 ++ p

/-- The power `x^n`. -/
def xPow (n : Nat) : Poly F := monomial n 1

/-- The vanishing polynomial `x^n − 1` of the size-`n` multiplicative
domain (`EvaluationDomain::vanishing_polynomial`). -/
def vanishing (n : Nat) : Poly F := sub (xPow n) [1]

/-- `p.mul_by_vanishing_poly(domain)`. -/
def mulByVanishing (n : Nat) (p : Poly F) : Poly F := mul p (vanishing n)

@[simp] theorem eval_nil (x : F) : eval ([] : Poly F) x = 0 := rfl

@[simp] theorem eval_cons (a : F) (p : Poly F) (x : F) :
    eval (a :: p) x = a + x * eval p x := rfl

@[simp] theorem eval_add (p q : Poly F) (x : F) :
    eval (add p q) x = eval p x + eval q x := by
  induction p generalizing q with
  | nil => simp [add]
  | cons a p ih =>
    cases q with
    | nil => simp [add]
    | cons b q => simp [add, ih]; ring

@[simp] theorem eval_neg (p : Poly F) (x : F) :
    eval (neg p) x = - eval p x := by
  induction p with
  | nil => simp [neg]
  | cons a p ih => simp [neg] at ih ⊢; simp [ih]; ring

@[simp] theorem eval_sub (p q : Poly F) (x : F) :
    eval (sub p q) x = eval p x - eval q x := by
  simp [sub]; ring

@[simp] theorem eval_scale (c : F) (p : Poly F) (x : F) :
    eval (scale c p) x = c * eval p x := by
  induction p with
  | nil => simp [scale]
  | cons a p ih => simp [scale] at ih ⊢; simp [ih]; ring

@[simp] theorem eval_mul (p q : Poly F) (x : F) :
    eval (mul p q) x = eval p x * eval q x := by
  induction p with
  | nil => simp [mul]
  | cons a p ih => simp [mul, ih]; ring

@[simp] theorem eval_monomial (s : Nat) (a : F) (x : F) :
    eval (monomial s a) x = a * x ^ s := by
  induction s with
  | zero => simp [monomial]
  | succ s ih =>
    simp [monomial, List.replicate_succ] at ih ⊢
    simp [ih]; ring

@[simp] theorem eval_shift (s : Nat) (p : Poly F) (x : F) :
    eval (shift s p) x = x ^ s * eval p x := by
  induction s with
  | zero => simp [shift]
  | succ s ih =>
    simp [shift, List.replicate_succ] at ih ⊢
    simp [ih]; ring

@[simp] theorem eval_xPow (n : Nat) (x : F) : eval (xPow n : Poly F) x = x ^ n := by
  simp [xPow]

@[simp] theorem eval_vanishing (n : Nat) (x : F) :
    eval (vanishing n : Poly F) x = x ^ n - 1 := by
  simp [vanishing]

theorem eval_trim (p : Poly F) (x : F) : eval (trim p) x = eval p x := by
  induction p with
  | nil => rfl
  | cons a p ih =>
    simp only [trim]
    cases h : trim p with
    | nil =>
      rw [h] at ih
      by_cases ha : a = 0 <;> simp [ha, ← ih]
    | cons b q =>
      rw [h] at ih
      simp [← ih]

theorem eval_isZero (p : Poly F) (x : F) (h : isZero p = true) : eval p x = 0 := by
  induction p with
  | nil => rfl
  | cons a q ih =>
    simp only [isZero, List.all_cons, Bool.and_eq_true, decide_eq_true_eq] at h
    have hq : eval q x = 0 := ih (by simp only [isZero]; simpa using h.2)
    simp [h.1, hq]

/-- One pass of long division: repeatedly cancel the top coefficient of the
dividend against the (trimmed, nonzero) divisor `d` with leading coefficient
`c` at degree `m`.  Fuel-driven; `divideWithQR` supplies ample fuel. -/
def divModAux (d : Poly F) (c : F) (m : Nat) : Nat → Poly F → Poly F × Poly F
  | 0, p => ([], p)
  | fuel + 1, p =>
    let pt := trim p
    if pt.length ≤ m then ([], pt)
    else
      let k := pt.length - 1
      let coef := pt.getD k 0 * c⁻¹
      let p' := sub pt (scale coef (shift (k - m) d))
      let qr := divModAux d c m fuel p'
      (add qr.1 (monomial (k - m) coef), qr.2)

/-- `DenseOrSparsePolynomial::divide_with_q_and_r`: Euclidean division,
`none` exactly when the divisor is the zero polynomial. -/
def divideWithQR (p d : Poly F) : Option (Poly F × Poly F) :=
  let dt := trim d
  if dt.length = 0 then none
  else some (divModAux dt (dt.getD (dt.length - 1) 0) (dt.length - 1) (p.length + 1) p)

/-- `DensePolynomial::divide_by_vanishing_poly(domain)`: division by
`x^n − 1`. -/
def divideByVanishing (p : Poly F) (n : Nat) : Option (Poly F × Poly F) :=
  divideWithQR p (vanishing n)

theorem divModAux_eval (d : Poly F) (c : F) (m : Nat) (fuel : Nat) (p : Poly F)
    (x : F) :
    eval p x =
      eval d x * eval (divModAux d c m fuel p).1 x + eval (divModAux d c m fuel p).2 x := by
  induction fuel generalizing p with
  | zero => simp [divModAux]
  | succ fuel ih =>
    simp only [divModAux]
    by_cases h : (trim p).length ≤ m
    · simp [h, eval_trim]
    · simp only [h, if_false]
      have hrec := ih (sub (trim p) (scale ((trim p).getD ((trim p).length - 1) 0 * c⁻¹)
        (shift ((trim p).length - 1 - m) d)))
      rw [← eval_trim p x]
      simp only [eval_sub, eval_scale, eval_shift] at hrec
      simp only [eval_add, eval_monomial]
      rw [show eval (trim p) x =
        (eval (trim p) x - (trim p).getD ((trim p).length - 1) 0 * c⁻¹ *
          (x ^ ((trim p).length - 1 - m) * eval d x)) +
        (trim p).getD ((trim p).length - 1) 0 * c⁻¹ *
          (x ^ ((trim p).length - 1 - m) * eval d x) by ring]
      rw [hrec]
      ring

/-- Division correctness, at the level of evaluation: dividend = divisor ·
quotient + remainder everywhere. -/
theorem divideWithQR_eval (p d : Poly F) (q r : Poly F) (x : F)
    (h : divideWithQR p d = some (q, r)) :
    eval p x = eval d x * eval q x + eval r x := by
  unfold divideWithQR at h
  by_cases hd : (trim d).length = 0
  · simp [hd] at h
  · simp only [hd, if_false, Option.some.injEq] at h
    have := divModAux_eval (trim d) ((trim d).getD ((trim d).length - 1) 0)
      ((trim d).length - 1) (p.length + 1) p x
    rw [h] at this
    rwa [eval_trim] at this

end Poly

/-! ## Lagrange interpolation over a list of nodes

Models `Evaluations::from_vec_and_domain(vals, domain).interpolate()`: the
unique polynomial of degree `< n` taking the given values on the domain
points (the iFFT result).  The value vector is padded with zeros to the
domain size, as `ff_fft`'s iFFT resizes its input. -/

open Poly

/-- `∏_{j ≠ i} (x − dom[j])`, the numerator of the `i`-th Lagrange basis
polynomial. -/
def lagNodal (dom : List F) (i : Nat) : Poly F :=
  ((dom.eraseIdx i).map (fun a => [-a, 1])).foldr Poly.mul [1]

/-- `∏_{j ≠ i} (dom[i] − dom[j])`, the denominator of the `i`-th Lagrange
basis polynomial. -/
def lagDenom (dom : List F) (i : Nat) : F :=
  ((dom.eraseIdx i).map (fun a => dom.getD i 0 - a)).prod

/-- Lagrange interpolation of `vals` over the nodes `dom`. -/
def interpolate (dom vals : List F) : Poly F :=
  ((List.range dom.length).map
    (fun i => Poly.scale (vals.getD i 0 * (lagDenom dom i)⁻¹) (lagNodal dom i))).foldr
    Poly.add []

/-- Append zeros up to length `n`. -/
def padTo (n : Nat) (l : List F) : List F := l ++ List.replicate (n - l.length) 0

/-- Interpolation as the prover calls it: values padded with zeros to the
domain size. -/
def interpD (dom vals : List F) : Poly F := interpolate dom (padTo dom.length vals)

theorem eval_foldr_add {α : Type} (L : List α) (f : α → Poly F) (x : F) :
    eval ((L.map f).foldr Poly.add []) x = (L.map (fun a => eval (f a) x)).sum := by
  induction L with
  | nil => simp
  | cons a L ih => simp [ih]

theorem eval_lagNodal (dom : List F) (i : Nat) (x : F) :
    eval (lagNodal dom i) x = ((dom.eraseIdx i).map (fun a => x - a)).prod := by
  unfold lagNodal
  induction dom.eraseIdx i with
  | nil => simp [Poly.eval]
  | cons a L ih =>
    rw [List.map_cons, List.foldr_cons, eval_mul, ih, List.map_cons, List.prod_cons]
    have hlin : eval ([-a, 1] : Poly F) x = x - a := by
      simp [Poly.eval]; ring
    rw [hlin]

/-- Membership of a retained position in `eraseIdx`. -/
theorem getD_mem_eraseIdx (l : List F) (i j : Nat) (hj : j < l.length) (hij : j ≠ i) :
    l.getD j 0 ∈ l.eraseIdx i := by
  induction l generalizing i j with
  | nil => simp at hj
  | cons a l ih =>
    cases i with
    | zero =>
      cases j with
      | zero => exact absurd rfl hij
      | succ j =>
        simp only [List.length_cons, Nat.succ_lt_succ_iff] at hj
        have hv : l.getD j 0 = l[j] := by
          simp [List.getD_eq_getElem?_getD, List.getElem?_eq_getElem hj]
        simp only [List.eraseIdx, List.getD_cons_succ, hv]
        exact List.getElem_mem hj
    | succ i =>
      cases j with
      | zero => simp [List.eraseIdx, List.getD]
      | succ j =>
        simp only [List.length_cons, Nat.succ_lt_succ_iff] at hj
        have := ih i j hj (fun h => hij (by rw [h]))
        simp only [List.eraseIdx]
        simp only [List.getD_cons_succ]
        exact List.mem_cons_of_mem _ this

/-- Every member of `eraseIdx i` sits at some position other than `i`. -/
theorem mem_eraseIdx_getD (l : List F) (i : Nat) (a : F) (ha : a ∈ l.eraseIdx i) :
    ∃ j, j < l.length ∧ j ≠ i ∧ l.getD j 0 = a := by
  induction l generalizing i with
  | nil => simp [List.eraseIdx] at ha
  | cons b l ih =>
    cases i with
    | zero =>
      simp only [List.eraseIdx] at ha
      obtain ⟨j, hj, rfl⟩ := List.getElem_of_mem ha
      exact ⟨j + 1, by simpa using hj, by simp,
        by simp [List.getD_eq_getElem?_getD, List.getElem?_eq_getElem hj]⟩
    | succ i =>
      simp only [List.eraseIdx] at ha
      rcases List.mem_cons.mp ha with h | h
      · exact ⟨0, by simp, by simp, by simp [h]⟩
      · obtain ⟨j, hj, hji, hv⟩ := ih i h
        exact ⟨j + 1, by simpa using hj, by simpa using hji, by simpa using hv⟩

theorem sum_map_range (f : Nat → F) (n : Nat) :
    ((List.range n).map f).sum = ∑ i in Finset.range n, f i := by
  induction n with
  | zero => simp
  | succ n ih =>
    rw [List.range_succ, List.map_append, List.sum_append, Finset.sum_range_succ, ih]
    simp

/-- The defining property of Lagrange interpolation: at the `k`-th node the
interpolant takes the `k`-th value, provided the nodes are pairwise
distinct. -/
theorem eval_interpolate_at_node (dom vals : List F) (k : Nat)
    (hk : k < dom.length)
    (hinj : ∀ i j, i < dom.length → j < dom.length →
      dom.getD i 0 = dom.getD j 0 → i = j) :
    eval (interpolate dom vals) (dom.getD k 0) = vals.getD k 0 := by
  unfold interpolate
  rw [eval_foldr_add, sum_map_range]
  have hzero : ∀ i ∈ Finset.range dom.length, i ≠ k →
      eval (Poly.scale (vals.getD i 0 * (lagDenom dom i)⁻¹) (lagNodal dom i))
        (dom.getD k 0) = 0 := by
    intro i _ hik
    rw [eval_scale, eval_lagNodal]
    have hmem : dom.getD k 0 ∈ dom.eraseIdx i :=
      getD_mem_eraseIdx dom i k hk (Ne.symm hik)
    have : (0 : F) ∈ (dom.eraseIdx i).map (fun a => dom.getD k 0 - a) :=
      List.mem_map.mpr ⟨dom.getD k 0, hmem, by ring⟩
    rw [List.prod_eq_zero this, mul_zero]
  rw [Finset.sum_eq_single_of_mem k (Finset.mem_range.mpr hk) hzero]
  rw [eval_scale, eval_lagNodal]
  have hden : ((dom.eraseIdx k).map (fun a => dom.getD k 0 - a)).prod = lagDenom dom k := rfl
  rw [hden]
  have hne : lagDenom dom k ≠ 0 := by
    unfold lagDenom
    apply List.prod_ne_zero
    intro hc
    obtain ⟨a, ha, hv⟩ := List.mem_map.mp hc
    obtain ⟨j, hj, hjk, rfl⟩ := mem_eraseIdx_getD dom k a ha
    have : dom.getD k 0 = dom.getD j 0 := by
      have := sub_eq_zero.mp hv
      linear_combination this
    exact hjk (hinj j k hj hk this.symm)
  field_simp

/-! ## Data model (`dlog/plonk/src/prover.rs` and its collaborators) -/

/-- `oracle::rndoracle::ProofError` (the oracle crate is not under src/).
Modelled from the spec: the error taxonomy — `WitnessCsInconsistent` is the
input-inconsistency failure, `ProofCreation` and `PolyDivision` the
construction-integrity failures the prover raises. -/
inductive ProofError where
  | WitnessCsInconsistent
  | ProofCreation
  | PolyDivision
deriving DecidableEq

/-- The six Fiat-Shamir challenges (`RandomOracles<F>` in the source). -/
structure RandomOracles (F : Type) where
  beta : F
  gamma : F
  alpha : F
  zeta : F
  v : F
  u : F
deriving DecidableEq

/-- `RandomOracles::zero`: all challenges zero before derivation. -/
def RandomOracles.zero : RandomOracles F :=
  { beta := 0, gamma := 0, alpha := 0, zeta := 0, v := 0, u := 0 }

/-- `PolyComm<G>` of commitment_dlog (not under src/).  Modelled from the
spec: a commitment carries an unshifted part and, when a degree bound was
supplied, a shifted part. -/
structure PolyComm (G : Type) where
  unshifted : List G
  shifted : Option G
deriving DecidableEq

/-- `ProofEvaluations<Fs>` from the source: one record of evaluations per
evaluation point, `sigma` listing the three permutation polynomials. -/
structure ProofEvaluations (Fs : Type) where
  l : Fs
  r : Fs
  o : Fs
  z : Fs
  t : Fs
  ql : Fs
  qr : Fs
  qo : Fs
  qm : Fs
  qc : Fs
  sigma : Fs × Fs × Fs
deriving DecidableEq

/-- `ProverProof<G>` from the source; `O` is the abstract opening-proof
type (`OpeningProof<G>` lives in commitment_dlog, not under src/). -/
structure ProverProof (F G O : Type) where
  l_comm : PolyComm G
  r_comm : PolyComm G
  o_comm : PolyComm G
  z_comm : PolyComm G
  t_comm : PolyComm G
  proof : O
  evals : ProofEvaluations F × ProofEvaluations F
  public : List F
deriving DecidableEq

/-- One row of the circuit: the witness positions assigned to the three
wires (`gate.l.0`, `gate.r.0`, `gate.o.0`; the circuits crate is not under
src/ — modelled from the spec: per-row gate-assigned witness positions). -/
structure Gate where
  l : Nat
  r : Nat
  o : Nat
deriving DecidableEq

/-- The per-circuit data `index.cs` draws on (the circuits crate is not
under src/ — modelled from the spec: domain size and generator,
public-input row count, per-row wire positions, five gate-selector
polynomials, three permutation polynomials in evaluation (`sigmal`) and
monomial (`sigmam`) form, identity-position labels `sid`, and the two
coset-shift constants `r`, `o`). -/
structure ConstraintSystem (F : Type) where
  /-- `domain.size()` -/
  domainSize : Nat
  /-- `domain.group_gen` -/
  domainGen : F
  public : Nat
  gates : List Gate
  sigmal : List F × List F × List F
  sigmam : Poly F × Poly F × Poly F
  sid : List F
  r : F
  o : F
  ql : Poly F
  qr : Poly F
  qo : Poly F
  qm : Poly F
  qc : Poly F
deriving DecidableEq

/-- The prover `Index` (its own crate file is not under src/ — modelled
from the spec: the constraint system plus the maximum
evaluation-polynomial size; the commitment key and sponge parameters are
absorbed into the abstract operations below). -/
structure Index (F : Type) where
  cs : ConstraintSystem F
  max_poly_size : Nat
deriving DecidableEq

/-- One transcript interaction of the Fq-sponge (oracle crate, not under
src/ — modelled from the spec: a sponge absorbing scalar vectors and curve
points and squeezed for challenges; each interaction is recorded as an
event). -/
inductive SpongeEv (G F : Type) where
  | absorbFr (xs : List F)
  | absorbG (gs : List G)
  | squeeze
deriving DecidableEq

/-- The arguments the prover passes to the commitment scheme's `open`
(modelled from the spec's interface: the (polynomial, optional degree
bound) list, the evaluation points, the two scaling challenges, the
transcript snapshot, and the opening randomness). -/
structure OpenCall (F G : Type) where
  polys : List (Poly F × Option Nat)
  pts : List F
  v : F
  u : F
  sponge : List (SpongeEv G F)
  rand : F
deriving DecidableEq

/-- Instrumentation of one `create` run: the transcript events, the commit
calls (polynomial and declared degree bound), and the single open call, in
program order. -/
structure CreateLog (F G : Type) where
  trace : List (SpongeEv G F)
  commits : List (Poly F × Option Nat)
  openCall : Option (OpenCall F G)
deriving DecidableEq

/-- The external collaborators, abstract: the commitment scheme's `commit`
and `open`, and the sponge's challenge derivation as a function of the
events issued so far (a squeeze itself is also recorded, since squeezing
advances the sponge state). -/
structure Ops (F G O GM : Type) where
  commit : Poly F → Option Nat → PolyComm G
  openPf : GM → OpenCall F G → O
  chal : List (SpongeEv G F) → F

/-- Everything `create` consumes: the abstract external operations, the
group map, the witness, the index, the three sampled blinding polynomials
(the `DensePolynomial::rand(1, &mut OsRng)` draws, in l/r/o order) and the
opening randomness (the `OsRng` handed to `open`). -/
structure Inputs (F G O GM : Type) where
  ops : Ops F G O GM
  group_map : GM
  witness : List F
  index : Index F
  blinds : Poly F × Poly F × Poly F
  rand : F

/-- `algebra::fields::batch_inversion` (zexe, external): inverts every
nonzero entry and leaves zeros untouched, which agrees with Lean's
`0⁻¹ = 0` convention. -/
def batchInversion (l : List F) : List F := l.map (fun a => a⁻¹)

/-- The size-`n` multiplicative domain as the list `[ω^0, …, ω^(n−1)]`. -/
def domainPoints (gen : F) (n : Nat) : List F :=
  (List.range n).map (fun i => gen ^ i)

/-- Modelled from the spec: the commitment scheme's evaluation of a
committed polynomial at a point (`Utils::eval` of commitment_dlog, not
under src/) — the ProofEvaluations records "hold the values of every
committed polynomial" at the point; `size` mirrors the
`index.max_poly_size` argument at every call site. -/
def pcEval (p : Poly F) (x : F) (size : Nat) : F := Poly.eval p x

variable {G O GM : Type}

/-! ## The staged embedding of `ProverProof::create`

Each intermediate value of `create` is a definition of the inputs; `create`
itself chains them with the source's early returns. -/

/-- `n = index.cs.domain.size()` (line 82). -/
def nOf (inp : Inputs F G O GM) : Nat := inp.index.cs.domainSize

/-- The domain the interpolations run over. -/
def domOf (inp : Inputs F G O GM) : List F :=
  domainPoints inp.index.cs.domainGen (nOf inp)

/-- `public = witness[0..index.cs.public].to_vec()` (line 91). -/
def publicOf (inp : Inputs F G O GM) : List F :=
  inp.witness.take inp.index.cs.public

/-- `p = -interpolate(public)` (line 92). -/
def pPoly (inp : Inputs F G O GM) : Poly F :=
  Poly.neg (interpD (domOf inp) (publicOf inp))

/-- The blinded left-wire polynomial `l` (lines 94–95). -/
def lPoly (inp : Inputs F G O GM) : Poly F :=
  Poly.add
    (interpD (domOf inp) (inp.index.cs.gates.map (fun g => inp.witness.getD g.l 0)))
    (Poly.mulByVanishing (nOf inp) inp.blinds.1)

/-- The blinded right-wire polynomial `r` (lines 96–97). -/
def rPoly (inp : Inputs F G O GM) : Poly F :=
  Poly.add
    (interpD (domOf inp) (inp.index.cs.gates.map (fun g => inp.witness.getD g.r 0)))
    (Poly.mulByVanishing (nOf inp) inp.blinds.2.1)

/-- The blinded output-wire polynomial `o` (lines 98–99). -/
def oPoly (inp : Inputs F G O GM) : Poly F :=
  Poly.add
    (interpD (domOf inp) (inp.index.cs.gates.map (fun g => inp.witness.getD g.o 0)))
    (Poly.mulByVanishing (nOf inp) inp.blinds.2.2)

/-- `l_comm` (line 102). -/
def lCommOf (inp : Inputs F G O GM) : PolyComm G := inp.ops.commit (lPoly inp) none

/-- `r_comm` (line 103). -/
def rCommOf (inp : Inputs F G O GM) : PolyComm G := inp.ops.commit (rPoly inp) none

/-- `o_comm` (line 104). -/
def oCommOf (inp : Inputs F G O GM) : PolyComm G := inp.ops.commit (oPoly inp) none

/-- Transcript after round 1's absorptions (lines 107–110). -/
def trace1 (inp : Inputs F G O GM) : List (SpongeEv G F) :=
  [.absorbFr (publicOf inp), .absorbG (lCommOf inp).unshifted,
   .absorbG (rCommOf inp).unshifted, .absorbG (oCommOf inp).unshifted]

/-- `oracles.beta` (line 113). -/
def betaOf (inp : Inputs F G O GM) : F := inp.ops.chal (trace1 inp)

/-- Transcript after the beta squeeze. -/
def trace2 (inp : Inputs F G O GM) : List (SpongeEv G F) :=
  trace1 inp ++ [.squeeze]

/-- `oracles.gamma` (line 114). -/
def gammaOf (inp : Inputs F G O GM) : F := inp.ops.chal (trace2 inp)

/-- Transcript after the gamma squeeze. -/
def trace3 (inp : Inputs F G O GM) : List (SpongeEv G F) :=
  trace2 inp ++ [.squeeze]

/-- Row `j`'s permutation-side product (lines 121–124). -/
def permTermOf (inp : Inputs F G O GM) (j : Nat) : F :=
  (inp.witness.getD j 0 + inp.index.cs.sigmal.1.getD j 0 * betaOf inp + gammaOf inp) *
  (inp.witness.getD (j + nOf inp) 0 +
    inp.index.cs.sigmal.2.1.getD j 0 * betaOf inp + gammaOf inp) *
  (inp.witness.getD (j + 2 * nOf inp) 0 +
    inp.index.cs.sigmal.2.2.getD j 0 * betaOf inp + gammaOf inp)

/-- Row `j`'s identity-side product with the coset shifts (lines 135–137). -/
def idTermOf (inp : Inputs F G O GM) (j : Nat) : F :=
  (inp.witness.getD j 0 + inp.index.cs.sid.getD j 0 * betaOf inp + gammaOf inp) *
  (inp.witness.getD (j + nOf inp) 0 +
    inp.index.cs.sid.getD j 0 * betaOf inp * inp.index.cs.r + gammaOf inp) *
  (inp.witness.getD (j + 2 * nOf inp) 0 +
    inp.index.cs.sid.getD j 0 * betaOf inp * inp.index.cs.o + gammaOf inp)

/-- The length-(n+1) vector after the first pass (lines 118–125): ones,
positions `1..=n` overwritten with the permutation-side products. -/
def zPass1 (inp : Inputs F G O GM) : List F :=
  1 :: (List.range (nOf inp)).map (permTermOf inp)

/-- After `batch_inversion(&mut z[1..=n])` (line 127). -/
def zPass2 (inp : Inputs F G O GM) : List F :=
  (zPass1 inp).take 1 ++ batchInversion ((zPass1 inp).drop 1)

/-- One iteration of the running-product loop (lines 129–139):
`z[j+1] *= z[j] * idTerm j`. -/
def zStep (idTerm : Nat → F) (zz : List F) (j : Nat) : List F :=
  zz.set (j + 1) (zz.getD (j + 1) 0 * (zz.getD j 0 * idTerm j))

/-- The grand-product vector after the loop. -/
def zPass3 (inp : Inputs F G O GM) : List F :=
  (List.range (nOf inp)).foldl (zStep (idTermOf inp)) (zPass2 inp)

/-- The popped last entry `z[n]`, checked against one (line 141). -/
def zLastOf (inp : Inputs F G O GM) : F := (zPass3 inp).getD (nOf inp) 0

/-- The permutation polynomial: the first `n` entries interpolated
(line 142). -/
def zPoly (inp : Inputs F G O GM) : Poly F :=
  interpD (domOf inp) ((zPass3 inp).take (nOf inp))

/-- `z_comm` (line 145). -/
def zCommOf (inp : Inputs F G O GM) : PolyComm G := inp.ops.commit (zPoly inp) none

/-- Transcript after the z-commitment absorption (line 148). -/
def trace4 (inp : Inputs F G O GM) : List (SpongeEv G F) :=
  trace3 inp ++ [.absorbG (zCommOf inp).unshifted]

/-- `oracles.alpha` (line 149). -/
def alphaOf (inp : Inputs F G O GM) : F := inp.ops.chal (trace4 inp)

/-- Transcript after the alpha squeeze. -/
def trace5 (inp : Inputs F G O GM) : List (SpongeEv G F) :=
  trace4 inp ++ [.squeeze]

/-- `alpsq = oracles.alpha.square()` (line 150). -/
def alpsqOf (inp : Inputs F G O GM) : F := alphaOf inp * alphaOf inp

/-- The gate-identity term `t1` (lines 154–159). -/
def t1Poly (inp : Inputs F G O GM) : Poly F :=
  Poly.add (Poly.add (Poly.add (Poly.add (Poly.add
    (Poly.mul (lPoly inp) (Poly.mul (rPoly inp) inp.index.cs.qm))
    (Poly.mul (lPoly inp) inp.index.cs.ql))
    (Poly.mul (rPoly inp) inp.index.cs.qr))
    (Poly.mul (oPoly inp) inp.index.cs.qo))
    inp.index.cs.qc)
    (pPoly inp)

/-- The permutation identity's identity side `t2` (lines 160–163). -/
def t2Poly (inp : Inputs F G O GM) : Poly F :=
  Poly.mul (Poly.mul (Poly.mul
    (Poly.add (lPoly inp) [gammaOf inp, betaOf inp])
    (Poly.add (rPoly inp) [gammaOf inp, betaOf inp * inp.index.cs.r]))
    (Poly.add (oPoly inp) [gammaOf inp, betaOf inp * inp.index.cs.o]))
    (zPoly inp)

/-- `z(shift·x)` as built on line 168–169: each coefficient of `z`
multiplied by the matching `sid` entry. -/
def zSidPoly (inp : Inputs F G O GM) : Poly F :=
  List.zipWith (fun zc wc => zc * wc) (zPoly inp) inp.index.cs.sid

/-- The permutation identity's permutation side `t3` (lines 164–169). -/
def t3Poly (inp : Inputs F G O GM) : Poly F :=
  Poly.mul (Poly.mul (Poly.mul
    (Poly.add (Poly.add (lPoly inp) [gammaOf inp])
      (Poly.scale (betaOf inp) inp.index.cs.sigmam.1))
    (Poly.add (Poly.add (rPoly inp) [gammaOf inp])
      (Poly.scale (betaOf inp) inp.index.cs.sigmam.2.1)))
    (Poly.add (Poly.add (oPoly inp) [gammaOf inp])
      (Poly.scale (betaOf inp) inp.index.cs.sigmam.2.2)))
    (zSidPoly inp)

/-- The boundary-identity division `(z − 1) / (x − 1)` (lines 170–173). -/
def boundaryDivOf (inp : Inputs F G O GM) : Option (Poly F × Poly F) :=
  divideWithQR (Poly.sub (zPoly inp) [1]) [-1, 1]

/-- `t1 + alpha·(t2 − t3)` (line 176). -/
def combinedOf (inp : Inputs F G O GM) : Poly F :=
  Poly.add (t1Poly inp) (Poly.scale (alphaOf inp) (Poly.sub (t2Poly inp) (t3Poly inp)))

/-- The vanishing-polynomial division of the combined identity
(lines 176–177). -/
def quotDivOf (inp : Inputs F G O GM) : Option (Poly F × Poly F) :=
  divideByVanishing (combinedOf inp) (nOf inp)

/-- The boundary quotient `t4` (meaningful once the division succeeded). -/
def t4Poly (inp : Inputs F G O GM) : Poly F :=
  ((boundaryDivOf inp).getD ([], [])).1

/-- The vanishing quotient (meaningful once the division succeeded). -/
def tQuot (inp : Inputs F G O GM) : Poly F :=
  ((quotDivOf inp).getD ([], [])).1

/-- The quotient polynomial `t` after `t += t4.scale(alpsq)` (line 179). -/
def tPoly (inp : Inputs F G O GM) : Poly F :=
  Poly.add (tQuot inp) (Poly.scale (alpsqOf inp) (t4Poly inp))

/-- `t_comm`, the only commitment carrying a degree bound (line 182). -/
def tCommOf (inp : Inputs F G O GM) : PolyComm G :=
  inp.ops.commit (tPoly inp) (some (3 * nOf inp + 3))

/-- Transcript after the t-commitment absorption (line 185). -/
def trace6 (inp : Inputs F G O GM) : List (SpongeEv G F) :=
  trace5 inp ++ [.absorbG (tCommOf inp).unshifted]

/-- `oracles.zeta` (line 186). -/
def zetaOf (inp : Inputs F G O GM) : F := inp.ops.chal (trace6 inp)

/-- Transcript after the zeta squeeze. -/
def trace7 (inp : Inputs F G O GM) : List (SpongeEv G F) :=
  trace6 inp ++ [.squeeze]

/-- The two evaluation points `[zeta, zeta·group_gen]` (line 190). -/
def evlpOf (inp : Inputs F G O GM) : List F :=
  [zetaOf inp, zetaOf inp * inp.index.cs.domainGen]

/-- One evaluation record (lines 193–213). -/
def evalsAt (inp : Inputs F G O GM) (x : F) : ProofEvaluations F :=
  { l := pcEval (lPoly inp) x inp.index.max_poly_size
    r := pcEval (rPoly inp) x inp.index.max_poly_size
    o := pcEval (oPoly inp) x inp.index.max_poly_size
    z := pcEval (zPoly inp) x inp.index.max_poly_size
    t := pcEval (tPoly inp) x inp.index.max_poly_size
    ql := pcEval inp.index.cs.ql x inp.index.max_poly_size
    qr := pcEval inp.index.cs.qr x inp.index.max_poly_size
    qo := pcEval inp.index.cs.qo x inp.index.max_poly_size
    qm := pcEval inp.index.cs.qm x inp.index.max_poly_size
    qc := pcEval inp.index.cs.qc x inp.index.max_poly_size
    sigma :=
      (pcEval inp.index.cs.sigmam.1 x inp.index.max_poly_size,
       pcEval inp.index.cs.sigmam.2.1 x inp.index.max_poly_size,
       pcEval inp.index.cs.sigmam.2.2 x inp.index.max_poly_size) }

/-- The two evaluation records, at zeta and zeta·generator (lines 191–215). -/
def evalsOf (inp : Inputs F G O GM) : ProofEvaluations F × ProofEvaluations F :=
  (evalsAt inp (zetaOf inp), evalsAt inp (zetaOf inp * inp.index.cs.domainGen))

/-- `oracles.v` (line 218). -/
def vOf (inp : Inputs F G O GM) : F := inp.ops.chal (trace7 inp)

/-- Transcript after the v squeeze. -/
def trace8 (inp : Inputs F G O GM) : List (SpongeEv G F) :=
  trace7 inp ++ [.squeeze]

/-- `oracles.u` (line 219). -/
def uOf (inp : Inputs F G O GM) : F := inp.ops.chal (trace8 inp)

/-- Transcript after the u squeeze; this is the state
`fq_sponge.clone()` captures on line 220. -/
def trace9 (inp : Inputs F G O GM) : List (SpongeEv G F) :=
  trace8 inp ++ [.squeeze]

/-- The (polynomial, degree-bound) list handed to `open` (lines 232–249). -/
def openPolysOf (inp : Inputs F G O GM) : List (Poly F × Option Nat) :=
  [(lPoly inp, none), (rPoly inp, none), (oPoly inp, none), (zPoly inp, none),
   (tPoly inp, some (3 * nOf inp + 3)),
   (inp.index.cs.ql, none), (inp.index.cs.qr, none), (inp.index.cs.qo, none),
   (inp.index.cs.qm, none), (inp.index.cs.qc, none),
   (inp.index.cs.sigmam.1, none), (inp.index.cs.sigmam.2.1, none),
   (inp.index.cs.sigmam.2.2, none)]

/-- The full `open` call (lines 229–255). -/
def openCallOf (inp : Inputs F G O GM) : OpenCall F G :=
  { polys := openPolysOf inp
    pts := evlpOf inp
    v := vOf inp
    u := uOf inp
    sponge := trace9 inp
    rand := inp.rand }

/-- The assembled proof on the success path (lines 222–258). -/
def proofOf (inp : Inputs F G O GM) : ProverProof F G O :=
  { l_comm := lCommOf inp
    r_comm := rCommOf inp
    o_comm := oCommOf inp
    z_comm := zCommOf inp
    t_comm := tCommOf inp
    proof := inp.ops.openPf inp.group_map (openCallOf inp)
    evals := evalsOf inp
    public := publicOf inp }

/-- The first three commit calls, made before the permutation argument. -/
def commits3 (inp : Inputs F G O GM) : List (Poly F × Option Nat) :=
  [(lPoly inp, none), (rPoly inp, none), (oPoly inp, none)]

/-- The four commit calls made before the quotient construction. -/
def commits4 (inp : Inputs F G O GM) : List (Poly F × Option Nat) :=
  commits3 inp ++ [(zPoly inp, none)]

/-- `ProverProof::create` (lines 71–259), with its early returns, paired
with the log of external interactions it performed. -/
def create (inp : Inputs F G O GM) :
    Except ProofError (ProverProof F G O) × CreateLog F G :=
  if inp.witness.length ≠ 3 * nOf inp then
    (.error .WitnessCsInconsistent, ⟨[], [], none⟩)
  else if zLastOf inp ≠ 1 then
    (.error .ProofCreation, ⟨trace3 inp, commits3 inp, none⟩)
  else
    match boundaryDivOf inp with
    | none => (.error .PolyDivision, ⟨trace5 inp, commits4 inp, none⟩)
    | some t4r =>
      if Poly.isZero t4r.2 = false then
        (.error .PolyDivision, ⟨trace5 inp, commits4 inp, none⟩)
      else
        match quotDivOf inp with
        | none => (.error .PolyDivision, ⟨trace5 inp, commits4 inp, none⟩)
        | some tqr =>
          if Poly.isZero tqr.2 = false then
            (.error .PolyDivision, ⟨trace5 inp, commits4 inp, none⟩)
          else
            (.ok (proofOf inp),
             ⟨trace9 inp, commits4 inp ++ [(tPoly inp, some (3 * nOf inp + 3))],
              some (openCallOf inp)⟩)

/-! ## The grand-product recurrence (spec §4.3) -/

/-- The recurrence the specification describes: `z[0] = 1`,
`z[j+1] = z[j] · (identity-side term j) · (permutation-side term j)⁻¹`. -/
def zRec (idT permT : Nat → F) : Nat → F
  | 0 => 1
  | j + 1 => zRec idT permT j * idT j * (permT j)⁻¹

theorem zPass2_eq (inp : Inputs F G O GM) :
    zPass2 inp =
      1 :: (List.range (nOf inp)).map (fun j => (permTermOf inp j)⁻¹) := by
  simp [zPass2, zPass1, batchInversion, Function.comp]

theorem zPass2_length (inp : Inputs F G O GM) :
    (zPass2 inp).length = nOf inp + 1 := by
  rw [zPass2_eq]; simp

theorem zPass2_getD_zero (inp : Inputs F G O GM) : (zPass2 inp).getD 0 0 = 1 := by
  rw [zPass2_eq]; rfl

theorem zPass2_getD_succ (inp : Inputs F G O GM) (i : Nat) (hi : i < nOf inp) :
    (zPass2 inp).getD (i + 1) 0 = (permTermOf inp i)⁻¹ := by
  rw [zPass2_eq]
  simp [List.getD_eq_getElem?_getD, List.getElem?_map, List.getElem?_range hi]

/-- Invariant of the running-product loop: after `k` iterations the entries
up to `k` carry the recurrence values and the later entries still carry the
batch-inverted permutation terms. -/
theorem foldl_zStep_invariant (idT permT : Nat → F) (n : Nat) (z0 : List F)
    (hlen : z0.length = n + 1) (h0 : z0.getD 0 0 = 1)
    (hrest : ∀ i, i < n → z0.getD (i + 1) 0 = (permT i)⁻¹) :
    ∀ k, k ≤ n →
      ((List.range k).foldl (zStep idT) z0).length = n + 1 ∧
      (∀ i, i ≤ n →
        ((List.range k).foldl (zStep idT) z0).getD i 0 =
          if i ≤ k then zRec idT permT i else (permT (i - 1))⁻¹) := by
  intro k
  induction k with
  | zero =>
    intro _
    refine ⟨by simpa using hlen, ?_⟩
    intro i hi
    rcases Nat.eq_zero_or_pos i with h | h
    · subst h; simpa [zRec] using h0
    · obtain ⟨j, rfl⟩ := Nat.exists_eq_succ_of_ne_zero (Nat.pos_iff_ne_zero.mp h)
      have hj : j < n := by omega
      have : ¬ (j + 1 ≤ 0) := by omega
      simp only [List.foldl_nil, List.range_zero, this, if_false]
      simpa using hrest j hj
  | succ k ih =>
    intro hk
    have hk' : k ≤ n := Nat.le_of_succ_le hk
    obtain ⟨ihlen, ihget⟩ := ih hk'
    rw [List.range_succ, List.foldl_append]
    simp only [List.foldl_cons, List.foldl_nil]
    constructor
    · simp [zStep, List.length_set, ihlen]
    · intro i hi
      simp only [zStep]
      rw [List.getD_eq_getElem?_getD, List.getElem?_set]
      by_cases hik : k + 1 = i
      · subst hik
        have hlt : k + 1 < ((List.range k).foldl (zStep idT) z0).length := by
          rw [ihlen]; omega
        simp only [if_pos rfl, if_pos hlt, Option.getD_some]
        have h1 : ((List.range k).foldl (zStep idT) z0).getD (k + 1) 0 =
            (permT k)⁻¹ := by
          rw [ihget (k + 1) hi]
          have : ¬ (k + 1 ≤ k) := by omega
          simp [this]
        have h2 : ((List.range k).foldl (zStep idT) z0).getD k 0 =
            zRec idT permT k := by
          rw [ihget k (by omega)]
          simp
        rw [h1, h2, if_pos (le_refl (k + 1))]
        show (permT k)⁻¹ * (zRec idT permT k * idT k) = zRec idT permT (k + 1)
        rw [zRec]
        ring
      · rw [if_neg hik, ← List.getD_eq_getElem?_getD, ihget i hi]
        by_cases hik' : i ≤ k
        · rw [if_pos hik', if_pos (by omega)]
        · rw [if_neg hik', if_neg (by omega)]

theorem zPass3_length (inp : Inputs F G O GM) :
    (zPass3 inp).length = nOf inp + 1 :=
  (foldl_zStep_invariant (idTermOf inp) (permTermOf inp) (nOf inp) (zPass2 inp)
    (zPass2_length inp) (zPass2_getD_zero inp) (zPass2_getD_succ inp)
    (nOf inp) (le_refl _)).1

theorem zPass3_getD (inp : Inputs F G O GM) (i : Nat) (hi : i ≤ nOf inp) :
    (zPass3 inp).getD i 0 = zRec (idTermOf inp) (permTermOf inp) i := by
  have h := (foldl_zStep_invariant (idTermOf inp) (permTermOf inp) (nOf inp)
    (zPass2 inp) (zPass2_length inp) (zPass2_getD_zero inp) (zPass2_getD_succ inp)
    (nOf inp) (le_refl _)).2 i hi
  rw [zPass3, h, if_pos hi]

/-! ## A concrete computable five-element field, and a concrete run

Used to instantiate the theorems below at explicit inputs.  `Fin 5` is
wrapped in a plain definition so that the field structure built here (whose
operations the kernel can evaluate, unlike `ZMod`'s extended-gcd inverse)
does not interfere with the library's instances. -/

def F5 : Type := Fin 5

instance : DecidableEq F5 := inferInstanceAs (DecidableEq (Fin 5))
instance : Fintype F5 := inferInstanceAs (Fintype (Fin 5))
instance : Add F5 := inferInstanceAs (Add (Fin 5))
instance : Mul F5 := inferInstanceAs (Mul (Fin 5))
instance : Neg F5 := inferInstanceAs (Neg (Fin 5))
instance : Zero F5 := inferInstanceAs (Zero (Fin 5))
instance : One F5 := inferInstanceAs (One (Fin 5))

/-- Inversion table mod 5: 2·3 = 6 ≡ 1 and 4·4 = 16 ≡ 1. -/
instance : Inv F5 :=
  ⟨fun a =>
    match (a : Fin 5) with
    | ⟨0, _⟩ => ((0 : Fin 5) : F5)
    | ⟨1, _⟩ => ((1 : Fin 5) : F5)
    | ⟨2, _⟩ => ((3 : Fin 5) : F5)
    | ⟨3, _⟩ => ((2 : Fin 5) : F5)
    | ⟨4, _⟩ => ((4 : Fin 5) : F5)⟩

instance : Field F5 :=
  Field.ofMinimalAxioms F5
    (by decide) (by decide) (by decide) (by decide) (by decide)
    (by decide) (by decide) (by decide) (by decide) (by decide)

/-- Trivial external collaborators for the concrete run: unit commitments
and a constant challenge. -/
def opsC : Ops F5 Unit Unit Unit :=
  { commit := fun _ _ => ⟨[()], none⟩
    openPf := fun _ _ => ()
    chal := fun _ => 1 }

/-- A one-row circuit over the one-point domain: identity wiring (with
coset shifts 2 and 3), all selectors zero, no public inputs. -/
def idxC : Index F5 :=
  { cs :=
    { domainSize := 1
      domainGen := 1
      public := 0
      gates := [⟨0, 1, 2⟩]
      sigmal := ([1], [2], [3])
      sigmam := ([1], [2], [3])
      sid := [1]
      r := 2
      o := 3
      ql := []
      qr := []
      qo := []
      qm := []
      qc := [] }
    max_poly_size := 8 }

/-- A satisfying run: the all-zero witness, zero blinding, on `idxC`. -/
def inpC : Inputs F5 Unit Unit Unit :=
  { ops := opsC, group_map := (), witness := [0, 0, 0], index := idxC,
    blinds := ([], [], []), rand := 0 }

/-- The same run with a malformed (empty) witness. -/
def inpBad : Inputs F5 Unit Unit Unit :=
  { ops := opsC, group_map := (), witness := [], index := idxC,
    blinds := ([], [], []), rand := 0 }


/-- The remainder of the boundary division (meaningful once it succeeded). -/
def t4Rem (inp : Inputs F G O GM) : Poly F := ((boundaryDivOf inp).getD ([], [])).2

/-- The remainder of the vanishing division (meaningful once it succeeded). -/
def tRem (inp : Inputs F G O GM) : Poly F := ((quotDivOf inp).getD ([], [])).2

/-- The log of a successful run. -/
def successLog (inp : Inputs F G O GM) : CreateLog F G :=
  ⟨trace9 inp, commits4 inp ++ [(tPoly inp, some (3 * nOf inp + 3))],
   some (openCallOf inp)⟩

theorem create_eq_of_conds (inp : Inputs F G O GM)
    (h1 : inp.witness.length = 3 * nOf inp) (h2 : zLastOf inp = 1)
    (hb : boundaryDivOf inp = some (t4Poly inp, t4Rem inp))
    (hb0 : Poly.isZero (t4Rem inp) = true)
    (hq : quotDivOf inp = some (tQuot inp, tRem inp))
    (hq0 : Poly.isZero (tRem inp) = true) :
    create inp = (.ok (proofOf inp), successLog inp) := by
  unfold create
  rw [if_neg (not_not_intro h1), if_neg (not_not_intro h2), hb, hq]
  simp [hb0, hq0, successLog]

theorem create_ok_conds (inp : Inputs F G O GM)
    (hok : ((create inp).1).isOk = true) :
    inp.witness.length = 3 * nOf inp ∧ zLastOf inp = 1 ∧
    boundaryDivOf inp = some (t4Poly inp, t4Rem inp) ∧
    Poly.isZero (t4Rem inp) = true ∧
    quotDivOf inp = some (tQuot inp, tRem inp) ∧
    Poly.isZero (tRem inp) = true := by
  unfold create at hok
  split at hok
  · simp [Except.isOk, Except.toBool] at hok
  next h1 =>
    split at hok
    · simp [Except.isOk, Except.toBool] at hok
    next h2 =>
      split at hok
      · simp [Except.isOk, Except.toBool] at hok
      next t4r hb =>
        split at hok
        · simp [Except.isOk, Except.toBool] at hok
        next hb0 =>
          split at hok
          · simp [Except.isOk, Except.toBool] at hok
          next tqr hq =>
            split at hok
            · simp [Except.isOk, Except.toBool] at hok
            next hq0 =>
              refine ⟨by omega, by simpa using h2, ?_, ?_, ?_, ?_⟩
              · rw [hb]
                simp [t4Poly, t4Rem, hb]
              · simp [t4Rem, hb]
                simpa using hb0
              · rw [hq]
                simp [tQuot, tRem, hq]
              · simp [tRem, hq]
                simpa using hq0

theorem create_ok_eq (inp : Inputs F G O GM)
    (hok : ((create inp).1).isOk = true) :
    create inp = (.ok (proofOf inp), successLog inp) := by
  obtain ⟨h1, h2, hb, hb0, hq, hq0⟩ := create_ok_conds inp hok
  exact create_eq_of_conds inp h1 h2 hb hb0 hq hq0

theorem create_err_len (inp : Inputs F G O GM)
    (h : inp.witness.length ≠ 3 * nOf inp) :
    create inp = (.error .WitnessCsInconsistent, ⟨[], [], none⟩) := by
  unfold create
  rw [if_pos h]

theorem create_err_zlast (inp : Inputs F G O GM)
    (h1 : inp.witness.length = 3 * nOf inp) (h2 : zLastOf inp ≠ 1) :
    create inp = (.error .ProofCreation, ⟨trace3 inp, commits3 inp, none⟩) := by
  unfold create
  rw [if_neg (not_not_intro h1), if_pos h2]

theorem create_err_boundary_none (inp : Inputs F G O GM)
    (h1 : inp.witness.length = 3 * nOf inp) (h2 : zLastOf inp = 1)
    (hb : boundaryDivOf inp = none) :
    create inp = (.error .PolyDivision, ⟨trace5 inp, commits4 inp, none⟩) := by
  unfold create
  rw [if_neg (not_not_intro h1), if_neg (not_not_intro h2), hb]

theorem create_err_boundary_rem (inp : Inputs F G O GM)
    (h1 : inp.witness.length = 3 * nOf inp) (h2 : zLastOf inp = 1)
    (s : Poly F × Poly F)
    (hb : boundaryDivOf inp = some s) (hs : Poly.isZero s.2 = false) :
    create inp = (.error .PolyDivision, ⟨trace5 inp, commits4 inp, none⟩) := by
  unfold create
  rw [if_neg (not_not_intro h1), if_neg (not_not_intro h2), hb]
  simp [hs]

theorem create_err_quot_none (inp : Inputs F G O GM)
    (h1 : inp.witness.length = 3 * nOf inp) (h2 : zLastOf inp = 1)
    (s : Poly F × Poly F)
    (hb : boundaryDivOf inp = some s) (hs : Poly.isZero s.2 = true)
    (hq : quotDivOf inp = none) :
    create inp = (.error .PolyDivision, ⟨trace5 inp, commits4 inp, none⟩) := by
  unfold create
  rw [if_neg (not_not_intro h1), if_neg (not_not_intro h2), hb, hq]
  simp [hs]

theorem create_err_quot_rem (inp : Inputs F G O GM)
    (h1 : inp.witness.length = 3 * nOf inp) (h2 : zLastOf inp = 1)
    (s u : Poly F × Poly F)
    (hb : boundaryDivOf inp = some s) (hs : Poly.isZero s.2 = true)
    (hq : quotDivOf inp = some u) (hu : Poly.isZero u.2 = false) :
    create inp = (.error .PolyDivision, ⟨trace5 inp, commits4 inp, none⟩) := by
  unfold create
  rw [if_neg (not_not_intro h1), if_neg (not_not_intro h2), hb, hq]
  simp [hs, hu]

/-! ## Claim theorems -/

/-- C4: a witness whose length differs from 3·n makes `create` fail with
`WitnessCsInconsistent` and an empty interaction log (no transcript
absorption, no commitment, no opening); with length exactly 3·n this error
is never returned. -/
theorem claim4_witness_length (inp : Inputs F G O GM) :
    (inp.witness.length ≠ 3 * nOf inp →
      create inp = (.error .WitnessCsInconsistent, ⟨[], [], none⟩)) ∧
    (inp.witness.length = 3 * nOf inp →
      (create inp).1 ≠ .error .WitnessCsInconsistent) := by
  refine ⟨create_err_len inp, ?_⟩
  intro h1 hc
  by_cases h2 : zLastOf inp = 1
  · cases hb : boundaryDivOf inp with
    | none =>
      rw [create_err_boundary_none inp h1 h2 hb] at hc
      simp at hc
    | some s =>
      cases hz : Poly.isZero s.2 with
      | false =>
        rw [create_err_boundary_rem inp h1 h2 s hb hz] at hc
        simp at hc
      | true =>
        cases hq : quotDivOf inp with
        | none =>
          rw [create_err_quot_none inp h1 h2 s hb hz hq] at hc
          simp at hc
        | some u =>
          cases hu : Poly.isZero u.2 with
          | false =>
            rw [create_err_quot_rem inp h1 h2 s u hb hz hq hu] at hc
            simp at hc
          | true =>
            have hb' : boundaryDivOf inp = some (t4Poly inp, t4Rem inp) := by
              rw [hb]; simp [t4Poly, t4Rem, hb]
            have hz' : Poly.isZero (t4Rem inp) = true := by
              simpa [t4Rem, hb] using hz
            have hq' : quotDivOf inp = some (tQuot inp, tRem inp) := by
              rw [hq]; simp [tQuot, tRem, hq]
            have hu' : Poly.isZero (tRem inp) = true := by
              simpa [tRem, hq] using hu
            rw [create_eq_of_conds inp h1 h2 hb' hz' hq' hu'] at hc
            simp at hc
  · rw [create_err_zlast inp h1 h2] at hc
    simp at hc

/-- C4 witness: a concrete too-short witness fails as stated, and the
concrete well-formed witness never sees this error. -/
theorem claim4_witness :
    create inpBad = (.error .WitnessCsInconsistent, ⟨[], [], none⟩) ∧
    (create inpC).1 ≠ .error .WitnessCsInconsistent :=
  ⟨(claim4_witness_length inpBad).1 (by decide),
   (claim4_witness_length inpC).2 (by decide)⟩

/-- C3: on a successful run the transcript interactions are exactly, in
order: absorb the public-input vector, absorb the l, r, o commitments,
squeeze beta then gamma, absorb the z commitment, squeeze alpha, absorb
the t commitment, squeeze zeta, then squeeze v and u — with no absorption
after the t commitment. -/
theorem claim3_transcript_order (inp : Inputs F G O GM)
    (hok : ((create inp).1).isOk = true) :
    (create inp).2.trace =
      [.absorbFr (publicOf inp),
       .absorbG (lCommOf inp).unshifted,
       .absorbG (rCommOf inp).unshifted,
       .absorbG (oCommOf inp).unshifted,
       .squeeze, .squeeze,
       .absorbG (zCommOf inp).unshifted,
       .squeeze,
       .absorbG (tCommOf inp).unshifted,
       .squeeze, .squeeze, .squeeze] := by
  rw [create_ok_eq inp hok]
  simp [successLog, trace9, trace8, trace7, trace6, trace5, trace4, trace3,
    trace2, trace1]

/-- C3 witness: the concrete successful run exhibits exactly this
transcript. -/
theorem claim3_witness :
    (create inpC).2.trace =
      [.absorbFr (publicOf inpC),
       .absorbG (lCommOf inpC).unshifted,
       .absorbG (rCommOf inpC).unshifted,
       .absorbG (oCommOf inpC).unshifted,
       .squeeze, .squeeze,
       .absorbG (zCommOf inpC).unshifted,
       .squeeze,
       .absorbG (tCommOf inpC).unshifted,
       .squeeze, .squeeze, .squeeze] :=
  claim3_transcript_order inpC (by decide)

/-- C9: determinism given fixed randomness — two runs with the same
external collaborators, group map, witness, index, sampled blinding
polynomials and opening randomness return identical results (the same
error, or proofs equal in every field). -/
theorem claim9_deterministic (inp1 inp2 : Inputs F G O GM)
    (hops : inp1.ops = inp2.ops) (hgm : inp1.group_map = inp2.group_map)
    (hw : inp1.witness = inp2.witness) (hidx : inp1.index = inp2.index)
    (hbl : inp1.blinds = inp2.blinds) (hrnd : inp1.rand = inp2.rand) :
    create inp1 = create inp2 ∧ (create inp1).1 = (create inp2).1 ∧
    (create inp1).2 = (create inp2).2 := by
  have h : inp1 = inp2 := by
    cases inp1; cases inp2
    simp_all
  rw [h]
  exact ⟨rfl, rfl, rfl⟩

/-- C9 witness: the concrete run is reproducible. -/
theorem claim9_witness :
    create inpC = create inpC ∧ (create inpC).1 = (create inpC).1 ∧
    (create inpC).2 = (create inpC).2 :=
  claim9_deterministic inpC inpC rfl rfl rfl rfl rfl rfl

/-- C2: the grand-product sequence has length n+1 and starts at 1; each
entry obeys z[j+1] = z[j] · (identity-side term) · (batch-inverted
permutation-side term); a final entry different from one aborts with
`ProofCreation` (before the z commitment: only three commits are logged);
conversely, when the error is not raised the final entry is one; and the
polynomial z interpolates the first n entries, the last excluded. -/
theorem claim2_grand_product (inp : Inputs F G O GM)
    (hw : inp.witness.length = 3 * nOf inp) :
    (zPass3 inp).length = nOf inp + 1 ∧
    (zPass3 inp).getD 0 0 = 1 ∧
    (∀ j, j < nOf inp →
      (zPass3 inp).getD (j + 1) 0 =
        (zPass3 inp).getD j 0 * idTermOf inp j * (permTermOf inp j)⁻¹) ∧
    (zLastOf inp ≠ 1 →
      create inp = (.error .ProofCreation, ⟨trace3 inp, commits3 inp, none⟩)) ∧
    ((create inp).1 ≠ .error .ProofCreation → zLastOf inp = 1) ∧
    zPoly inp = interpD (domOf inp) ((zPass3 inp).take (nOf inp)) := by
  refine ⟨zPass3_length inp, ?_, ?_, create_err_zlast inp hw, ?_, rfl⟩
  · rw [zPass3_getD inp 0 (Nat.zero_le _)]
    rfl
  · intro j hj
    rw [zPass3_getD inp (j + 1) (by omega), zPass3_getD inp j (by omega)]
    rfl
  · intro hne
    by_contra h2
    exact hne (by rw [create_err_zlast inp hw h2]) 

/-- C2 witness: the concrete run's sequence has length 2, starts at 1,
obeys the recurrence at row 0, and interpolates its first entry. -/
theorem claim2_witness :
    (zPass3 inpC).length = nOf inpC + 1 ∧
    (zPass3 inpC).getD 1 0 =
      (zPass3 inpC).getD 0 0 * idTermOf inpC 0 * (permTermOf inpC 0)⁻¹ ∧
    zPoly inpC = interpD (domOf inpC) ((zPass3 inpC).take (nOf inpC)) :=
  ⟨(claim2_grand_product inpC (by decide)).1,
   (claim2_grand_product inpC (by decide)).2.2.1 0 (by decide),
   (claim2_grand_product inpC (by decide)).2.2.2.2.2⟩

/-- C8: only the quotient polynomial t is committed and opened with a
declared degree bound (3n+3): the five commit calls bind l, r, o, z
without a bound and t with it, and among the thirteen opened polynomials
only the t entry carries a bound. -/
theorem claim8_degree_bounds (inp : Inputs F G O GM)
    (hok : ((create inp).1).isOk = true) :
    (create inp).2.commits =
      [(lPoly inp, none), (rPoly inp, none), (oPoly inp, none), (zPoly inp, none),
       (tPoly inp, some (3 * nOf inp + 3))] ∧
    (create inp).2.openCall = some (openCallOf inp) ∧
    ((create inp).2.commits.filter (fun pb => pb.2.isSome)) =
      [(tPoly inp, some (3 * nOf inp + 3))] ∧
    ((openCallOf inp).polys.filter (fun pb => pb.2.isSome)) =
      [(tPoly inp, some (3 * nOf inp + 3))] := by
  rw [create_ok_eq inp hok]
  refine ⟨by simp [successLog, commits4, commits3], rfl, ?_, ?_⟩
  · simp [successLog, commits4, commits3, List.filter]
  · simp [openCallOf, openPolysOf, List.filter]

/-- C8 witness: the concrete successful run commits exactly these five
polynomials with only t bounded. -/
theorem claim8_witness :
    (create inpC).2.commits =
      [(lPoly inpC, none), (rPoly inpC, none), (oPoly inpC, none), (zPoly inpC, none),
       (tPoly inpC, some (3 * nOf inpC + 3))] ∧
    ((openCallOf inpC).polys.filter (fun pb => pb.2.isSome)) =
      [(tPoly inpC, some (3 * nOf inpC + 3))] :=
  ⟨(claim8_degree_bounds inpC (by decide)).1,
   (claim8_degree_bounds inpC (by decide)).2.2.2⟩

/-- C10: the proof's public vector is the first `cs.public` witness
values; round 1's first transcript event absorbs that same vector; and the
public term added into the gate identity t1 is the negation of the
vector's interpolation over the domain. -/
theorem claim10_public_input (inp : Inputs F G O GM)
    (hok : ((create inp).1).isOk = true) :
    (create inp).1 = .ok (proofOf inp) ∧
    (proofOf inp).public = inp.witness.take inp.index.cs.public ∧
    (create inp).2.trace.head? =
      some (.absorbFr (inp.witness.take inp.index.cs.public)) ∧
    pPoly inp =
      Poly.neg (interpD (domOf inp) (inp.witness.take inp.index.cs.public)) ∧
    t1Poly inp =
      Poly.add (Poly.add (Poly.add (Poly.add (Poly.add
        (Poly.mul (lPoly inp) (Poly.mul (rPoly inp) inp.index.cs.qm))
        (Poly.mul (lPoly inp) inp.index.cs.ql))
        (Poly.mul (rPoly inp) inp.index.cs.qr))
        (Poly.mul (oPoly inp) inp.index.cs.qo))
        inp.index.cs.qc)
        (pPoly inp) ∧
    (∀ x, Poly.eval (pPoly inp) x =
      - Poly.eval (interpD (domOf inp) (inp.witness.take inp.index.cs.public)) x) := by
  have he := create_ok_eq inp hok
  refine ⟨by rw [he], rfl, ?_, rfl, rfl, ?_⟩
  · rw [he]
    simp [successLog, trace9, trace8, trace7, trace6, trace5, trace4, trace3,
      trace2, trace1, publicOf]
  · intro x
    simp [pPoly, publicOf]

/-- C10 witness: the concrete run, with the negation evaluated at 2. -/
theorem claim10_witness :
    (create inpC).1 = .ok (proofOf inpC) ∧
    (proofOf inpC).public = inpC.witness.take inpC.index.cs.public ∧
    Poly.eval (pPoly inpC) 2 =
      - Poly.eval (interpD (domOf inpC) (inpC.witness.take inpC.index.cs.public)) 2 :=
  ⟨(claim10_public_input inpC (by decide)).1,
   (claim10_public_input inpC (by decide)).2.1,
   (claim10_public_input inpC (by decide)).2.2.2.2.2 2⟩

/-- C1: on success, t is the exact quotient of t1 + alpha·(t2 − t3) by the
vanishing polynomial plus the boundary quotient of (z − 1) by (x − 1)
scaled by alpha² — exactness meaning the divisor times the quotient
reproduces the dividend at every point; and a nonzero remainder in either
division (or an impossible division) aborts with `PolyDivision` and no
proof. -/
theorem claim1_quotient (inp : Inputs F G O GM) :
    (((create inp).1).isOk = true →
      (create inp).1 = .ok (proofOf inp) ∧
      tPoly inp = Poly.add (tQuot inp) (Poly.scale (alpsqOf inp) (t4Poly inp)) ∧
      (∀ x, Poly.eval (combinedOf inp) x =
        (x ^ nOf inp - 1) * Poly.eval (tQuot inp) x) ∧
      (∀ x, Poly.eval (zPoly inp) x - 1 = (x - 1) * Poly.eval (t4Poly inp) x)) ∧
    (∀ s : Poly F × Poly F, inp.witness.length = 3 * nOf inp → zLastOf inp = 1 →
      boundaryDivOf inp = some s → Poly.isZero s.2 = false →
      (create inp).1 = .error .PolyDivision) ∧
    (∀ s u : Poly F × Poly F, inp.witness.length = 3 * nOf inp → zLastOf inp = 1 →
      boundaryDivOf inp = some s → Poly.isZero s.2 = true →
      quotDivOf inp = some u → Poly.isZero u.2 = false →
      (create inp).1 = .error .PolyDivision) ∧
    (inp.witness.length = 3 * nOf inp → zLastOf inp = 1 →
      boundaryDivOf inp = none → (create inp).1 = .error .PolyDivision) ∧
    (inp.witness.length = 3 * nOf inp → zLastOf inp = 1 →
      boundaryDivOf inp = some (t4Poly inp, t4Rem inp) →
      Poly.isZero (t4Rem inp) = true →
      quotDivOf inp = none → (create inp).1 = .error .PolyDivision) := by
  refine ⟨?_, ?_, ?_, ?_, ?_⟩
  · intro hok
    obtain ⟨h1, h2, hb, hb0, hq, hq0⟩ := create_ok_conds inp hok
    refine ⟨by rw [create_ok_eq inp hok], rfl, ?_, ?_⟩
    · intro x
      have := Poly.divideWithQR_eval (combinedOf inp) (Poly.vanishing (nOf inp))
        (tQuot inp) (tRem inp) x hq
      rw [Poly.eval_vanishing, Poly.eval_isZero _ x hq0, add_zero] at this
      exact this
    · intro x
      have := Poly.divideWithQR_eval (Poly.sub (zPoly inp) [1]) [-1, 1]
        (t4Poly inp) (t4Rem inp) x hb
      rw [Poly.eval_isZero _ x hb0, add_zero, Poly.eval_sub] at this
      have hx : Poly.eval ([-1, 1] : Poly F) x = x - 1 := by
        simp [Poly.eval]; ring
      have h1x : Poly.eval ([1] : Poly F) x = 1 := by
        simp [Poly.eval]
      rw [hx, h1x] at this
      exact this
  · intro s h1 h2 hb hz
    rw [create_err_boundary_rem inp h1 h2 s hb hz]
  · intro s u h1 h2 hb hz hq hu
    rw [create_err_quot_rem inp h1 h2 s u hb hz hq hu]
  · intro h1 h2 hb
    rw [create_err_boundary_none inp h1 h2 hb]
  · intro h1 h2 hb hz hq
    rw [create_err_quot_none inp h1 h2 (t4Poly inp, t4Rem inp) hb hz hq]

/-- C1 witness: on the concrete run, t decomposes as stated and the
vanishing-exactness identity holds at the point 2. -/
theorem claim1_witness :
    (create inpC).1 = .ok (proofOf inpC) ∧
    tPoly inpC = Poly.add (tQuot inpC) (Poly.scale (alpsqOf inpC) (t4Poly inpC)) ∧
    Poly.eval (combinedOf inpC) 2 =
      ((2 : F5) ^ nOf inpC - 1) * Poly.eval (tQuot inpC) 2 ∧
    Poly.eval (zPoly inpC) 2 - 1 = ((2 : F5) - 1) * Poly.eval (t4Poly inpC) 2 :=
  ⟨((claim1_quotient inpC).1 (by decide)).1,
   ((claim1_quotient inpC).1 (by decide)).2.1,
   ((claim1_quotient inpC).1 (by decide)).2.2.1 2,
   ((claim1_quotient inpC).1 (by decide)).2.2.2 2⟩

/-- Whether a transcript event absorbs data (rather than squeezing). -/
def SpongeEv.isAbsorb : SpongeEv G F → Bool
  | .squeeze => false
  | _ => true

/-- C5 counterexample: the evaluated-and-opened polynomial set of the
concrete run has thirteen members, not the twelve the claim counts. -/
theorem claim5_counterexample :
    (create inpC).2.openCall.map (fun oc => oc.polys.length) = some 13 ∧
    ¬ (create inpC).2.openCall.map (fun oc => oc.polys.length) = some 12 :=
  ⟨by decide, by decide⟩

/-- C5 (amended: thirteen polynomials, not twelve): the returned proof's
two evaluation records hold, at zeta and zeta·generator respectively, the
direct evaluations of the committed polynomials — the three witness
polynomials, z, t, the five gate selectors, the three permutation
polynomials — and the opening proof is taken over exactly these thirteen
polynomials at exactly those two points. -/
theorem claim5_evaluations (inp : Inputs F G O GM)
    (hok : ((create inp).1).isOk = true) :
    (create inp).1 = .ok (proofOf inp) ∧
    (proofOf inp).evals =
      (evalsAt inp (zetaOf inp), evalsAt inp (zetaOf inp * inp.index.cs.domainGen)) ∧
    (∀ x, evalsAt inp x =
      { l := pcEval (lPoly inp) x inp.index.max_poly_size
        r := pcEval (rPoly inp) x inp.index.max_poly_size
        o := pcEval (oPoly inp) x inp.index.max_poly_size
        z := pcEval (zPoly inp) x inp.index.max_poly_size
        t := pcEval (tPoly inp) x inp.index.max_poly_size
        ql := pcEval inp.index.cs.ql x inp.index.max_poly_size
        qr := pcEval inp.index.cs.qr x inp.index.max_poly_size
        qo := pcEval inp.index.cs.qo x inp.index.max_poly_size
        qm := pcEval inp.index.cs.qm x inp.index.max_poly_size
        qc := pcEval inp.index.cs.qc x inp.index.max_poly_size
        sigma :=
          (pcEval inp.index.cs.sigmam.1 x inp.index.max_poly_size,
           pcEval inp.index.cs.sigmam.2.1 x inp.index.max_poly_size,
           pcEval inp.index.cs.sigmam.2.2 x inp.index.max_poly_size) }) ∧
    (create inp).2.openCall = some (openCallOf inp) ∧
    (openCallOf inp).pts = [zetaOf inp, zetaOf inp * inp.index.cs.domainGen] ∧
    (openCallOf inp).polys.map Prod.fst =
      [lPoly inp, rPoly inp, oPoly inp, zPoly inp, tPoly inp,
       inp.index.cs.ql, inp.index.cs.qr, inp.index.cs.qo, inp.index.cs.qm,
       inp.index.cs.qc, inp.index.cs.sigmam.1, inp.index.cs.sigmam.2.1,
       inp.index.cs.sigmam.2.2] ∧
    (openCallOf inp).polys.length = 13 := by
  have he := create_ok_eq inp hok
  refine ⟨by rw [he], rfl, fun x => rfl, by rw [he]; rfl, rfl, rfl, rfl⟩

/-- C5 witness: the concrete run's first record holds the evaluations at
zeta, and thirteen polynomials are opened at the two points. -/
theorem claim5_witness :
    (create inpC).1 = .ok (proofOf inpC) ∧
    (proofOf inpC).evals.1 = evalsAt inpC (zetaOf inpC) ∧
    (openCallOf inpC).pts = [zetaOf inpC, zetaOf inpC * inpC.index.cs.domainGen] ∧
    (openCallOf inpC).polys.length = 13 :=
  ⟨(claim5_evaluations inpC (by decide)).1,
   congrArg Prod.fst (claim5_evaluations inpC (by decide)).2.1,
   (claim5_evaluations inpC (by decide)).2.2.2.2.1,
   (claim5_evaluations inpC (by decide)).2.2.2.2.2.2⟩

/-- C6 counterexample: in the concrete run the snapshot passed to `open`
differs from the transcript state from before v and u were derived (it
carries the two extra squeezes). -/
theorem claim6_counterexample :
    (create inpC).2.openCall.map (fun oc => oc.sponge) ≠ some (trace7 inpC) := by
  decide

/-- C6 (amended): the snapshot handed to `open` is the transcript state
from after v and u were derived — the pre-evaluation state extended by
exactly the two squeezes — and since nothing is absorbed into the
transcript after the t commitment its absorbed content coincides with the
pre-evaluation state's; the opening randomness is the fresh random input
passed through. -/
theorem claim6_snapshot (inp : Inputs F G O GM)
    (hok : ((create inp).1).isOk = true) :
    (create inp).2.openCall = some (openCallOf inp) ∧
    (openCallOf inp).sponge = trace7 inp ++ [.squeeze, .squeeze] ∧
    (openCallOf inp).sponge.filter SpongeEv.isAbsorb =
      (trace7 inp).filter SpongeEv.isAbsorb ∧
    (openCallOf inp).rand = inp.rand := by
  rw [create_ok_eq inp hok]
  refine ⟨rfl, ?_, ?_, rfl⟩
  · show trace9 inp = trace7 inp ++ [.squeeze, .squeeze]
    simp [trace9, trace8]
  · show (trace9 inp).filter SpongeEv.isAbsorb = (trace7 inp).filter SpongeEv.isAbsorb
    simp [trace9, trace8, List.filter_append, List.filter, SpongeEv.isAbsorb]

/-- C6 witness: the concrete run's snapshot carries the same absorptions
as the pre-evaluation state and passes the randomness through. -/
theorem claim6_witness :
    (openCallOf inpC).sponge = trace7 inpC ++ [.squeeze, .squeeze] ∧
    (openCallOf inpC).sponge.filter SpongeEv.isAbsorb =
      (trace7 inpC).filter SpongeEv.isAbsorb ∧
    (openCallOf inpC).rand = inpC.rand :=
  ⟨(claim6_snapshot inpC (by decide)).2.1,
   (claim6_snapshot inpC (by decide)).2.2.1,
   (claim6_snapshot inpC (by decide)).2.2.2⟩

theorem domainPoints_length (gen : F) (n : Nat) :
    (domainPoints gen n).length = n := by
  simp [domainPoints]

theorem domainPoints_getD (gen : F) (n i : Nat) (hi : i < n) :
    (domainPoints gen n).getD i 0 = gen ^ i := by
  simp [domainPoints, List.getD_eq_getElem?_getD, List.getElem?_map,
    List.getElem?_range hi]

theorem padTo_getD (n : Nat) (l : List F) (k : Nat) (hk : k < l.length) :
    (padTo n l).getD k 0 = l.getD k 0 :=
  List.getD_append _ _ _ _ hk

/-- Interpolation with zero-padded values still takes the given values on
the nodes that carry one. -/
theorem eval_interpD_at_node (dom vals : List F) (k : Nat)
    (hk : k < dom.length) (hkv : k < vals.length)
    (hinj : ∀ i j, i < dom.length → j < dom.length →
      dom.getD i 0 = dom.getD j 0 → i = j) :
    Poly.eval (interpD dom vals) (dom.getD k 0) = vals.getD k 0 := by
  unfold interpD
  rw [eval_interpolate_at_node dom (padTo dom.length vals) k hk hinj]
  exact padTo_getD _ _ _ hkv

/-- A blinded polynomial — interpolant plus any multiple of the vanishing
polynomial — agrees with the interpolated values on the domain. -/
theorem eval_blinded_at_node (gen : F) (n : Nat) (vals : List F) (b : Poly F)
    (i : Nat) (hi : i < n) (hgen : gen ^ n = 1)
    (hinj : ∀ a c, a < n → c < n → gen ^ a = gen ^ c → a = c)
    (hlen : n ≤ vals.length) :
    Poly.eval
      (Poly.add (interpD (domainPoints gen n) vals) (Poly.mulByVanishing n b))
      ((domainPoints gen n).getD i 0) = vals.getD i 0 := by
  rw [Poly.eval_add]
  have hd := domainPoints_getD gen n i hi
  have hvan :
      Poly.eval (Poly.mulByVanishing n b) ((domainPoints gen n).getD i 0) = 0 := by
    rw [Poly.mulByVanishing, Poly.eval_mul, Poly.eval_vanishing, hd,
      pow_right_comm, hgen, one_pow, sub_self, mul_zero]
  have hinj' : ∀ a c, a < (domainPoints gen n).length →
      c < (domainPoints gen n).length →
      (domainPoints gen n).getD a 0 = (domainPoints gen n).getD c 0 → a = c := by
    intro a c ha hc hEq
    rw [domainPoints_length] at ha hc
    rw [domainPoints_getD gen n a ha, domainPoints_getD gen n c hc] at hEq
    exact hinj a c ha hc hEq
  rw [eval_interpD_at_node _ _ i (by rw [domainPoints_length]; exact hi)
    (by omega) hinj', hvan, add_zero]

/-- C7: each blinded wire polynomial is the column interpolation plus the
sampled blinding polynomial times the vanishing polynomial, and at every
domain point it evaluates to the corresponding witness value in gate row
order — whatever the sampled blinding polynomials are. -/
theorem claim7_blinding (inp : Inputs F G O GM) (i : Nat) (hi : i < nOf inp)
    (hgen : inp.index.cs.domainGen ^ nOf inp = 1)
    (hinj : ∀ a c, a < nOf inp → c < nOf inp →
      inp.index.cs.domainGen ^ a = inp.index.cs.domainGen ^ c → a = c)
    (hgl : nOf inp ≤ inp.index.cs.gates.length) :
    lPoly inp =
      Poly.add
        (interpD (domOf inp) (inp.index.cs.gates.map (fun g => inp.witness.getD g.l 0)))
        (Poly.mul inp.blinds.1 (Poly.vanishing (nOf inp))) ∧
    rPoly inp =
      Poly.add
        (interpD (domOf inp) (inp.index.cs.gates.map (fun g => inp.witness.getD g.r 0)))
        (Poly.mul inp.blinds.2.1 (Poly.vanishing (nOf inp))) ∧
    oPoly inp =
      Poly.add
        (interpD (domOf inp) (inp.index.cs.gates.map (fun g => inp.witness.getD g.o 0)))
        (Poly.mul inp.blinds.2.2 (Poly.vanishing (nOf inp))) ∧
    Poly.eval (lPoly inp) ((domOf inp).getD i 0) =
      (inp.index.cs.gates.map (fun g => inp.witness.getD g.l 0)).getD i 0 ∧
    Poly.eval (rPoly inp) ((domOf inp).getD i 0) =
      (inp.index.cs.gates.map (fun g => inp.witness.getD g.r 0)).getD i 0 ∧
    Poly.eval (oPoly inp) ((domOf inp).getD i 0) =
      (inp.index.cs.gates.map (fun g => inp.witness.getD g.o 0)).getD i 0 := by
  refine ⟨rfl, rfl, rfl, ?_, ?_, ?_⟩
  · have hlen : nOf inp ≤
        (inp.index.cs.gates.map (fun g => inp.witness.getD g.l 0)).length := by
      rw [List.length_map]; exact hgl
    have h := eval_blinded_at_node inp.index.cs.domainGen (nOf inp)
      (inp.index.cs.gates.map (fun g => inp.witness.getD g.l 0)) inp.blinds.1
      i hi hgen hinj hlen
    exact h
  · have hlen : nOf inp ≤
        (inp.index.cs.gates.map (fun g => inp.witness.getD g.r 0)).length := by
      rw [List.length_map]; exact hgl
    have h := eval_blinded_at_node inp.index.cs.domainGen (nOf inp)
      (inp.index.cs.gates.map (fun g => inp.witness.getD g.r 0)) inp.blinds.2.1
      i hi hgen hinj hlen
    exact h
  · have hlen : nOf inp ≤
        (inp.index.cs.gates.map (fun g => inp.witness.getD g.o 0)).length := by
      rw [List.length_map]; exact hgl
    have h := eval_blinded_at_node inp.index.cs.domainGen (nOf inp)
      (inp.index.cs.gates.map (fun g => inp.witness.getD g.o 0)) inp.blinds.2.2
      i hi hgen hinj hlen
    exact h

/-- The concrete run with nonzero blinding polynomials. -/
def inpB7 : Inputs F5 Unit Unit Unit :=
  { ops := opsC, group_map := (), witness := [0, 0, 0], index := idxC,
    blinds := ([1, 2], [3, 4], [2, 2]), rand := 0 }

/-- C7 witness: with nonzero blinding, the blinded wire polynomials still
take the witness values on the domain point of the concrete run. -/
theorem claim7_witness :
    Poly.eval (lPoly inpB7) ((domOf inpB7).getD 0 0) =
      (inpB7.index.cs.gates.map (fun g => inpB7.witness.getD g.l 0)).getD 0 0 ∧
    Poly.eval (rPoly inpB7) ((domOf inpB7).getD 0 0) =
      (inpB7.index.cs.gates.map (fun g => inpB7.witness.getD g.r 0)).getD 0 0 ∧
    Poly.eval (oPoly inpB7) ((domOf inpB7).getD 0 0) =
      (inpB7.index.cs.gates.map (fun g => inpB7.witness.getD g.o 0)).getD 0 0 :=
  ⟨(claim7_blinding inpB7 0 (by decide) (by decide)
      (fun a c ha hc _ => by
        have hn : nOf inpB7 = 1 := rfl
        rw [hn] at ha hc; omega) (by decide)).2.2.2.1,
   (claim7_blinding inpB7 0 (by decide) (by decide)
      (fun a c ha hc _ => by
        have hn : nOf inpB7 = 1 := rfl
        rw [hn] at ha hc; omega) (by decide)).2.2.2.2.1,
   (claim7_blinding inpB7 0 (by decide) (by decide)
      (fun a c ha hc _ => by
        have hn : nOf inpB7 = 1 := rfl
        rw [hn] at ha hc; omega) (by decide)).2.2.2.2.2⟩
end Marlin
